import Mathlib

/-!
Shallow embedding of the scope/resource-lifecycle core of this repository:
`include/tvm/support/with.h` (`With<ContextType>`, `WithGroup<ContextType>`)
and `include/tvm/ir/scope_stack.h` (`ScopeStack<T>`).

Errors raised by lifecycle hooks (C++ exceptions) are modelled by an abstract
error type `ε`; a hook's outcome is an `Option ε` (`none` = returns normally,
`some exc` = raises `exc`).  Since the C++ code is generic over the context
type and only ever calls its constructor, `EnterWithScope` and
`ExitWithScope`, a context instance is fully described by the outcomes of
those three calls (`CtxSpec`), plus a numeric identity used to log hook
invocations.
-/

namespace TVM

/-- An enter/exit lifecycle event, used to log hook invocations. -/
inductive Event where
  | enter (id : Nat)
  | exit (id : Nat)
deriving DecidableEq, Repr

/-- Abstract description of one `ContextType` instance as seen by the generic
code of `with.h`: the outcome of its constructor, of `EnterWithScope()`, and
of `ExitWithScope()`, plus an identity for event logging. -/
structure CtxSpec (ε : Type) where
  id : Nat
  ctorErr : Option ε
  enterErr : Option ε
  exitErr : Option ε
deriving Repr

/-- A fully constructed and entered `With<ContextType>` instance (with.h line
93: the owned `ctx_`), reduced to what its destructor can still do: invoke
`ExitWithScope()`, whose outcome is `exitErr`. -/
structure Entry (ε : Type) where
  id : Nat
  exitErr : Option ε
deriving Repr, DecidableEq

/-- `With<ContextType>::With(Args&&...)` (with.h lines 66-68): construct the
context (may raise), then call `EnterWithScope()` (may raise).  If either
raises, construction fails as a whole and no wrapper object ever exists.
Returns the logged hook invocations and either the error or the live entry. -/
def mkWith {ε : Type} (c : CtxSpec ε) : List Event × Except ε (Entry ε) :=
  match c.ctorErr with
  | some exc => ([], .error exc)
  | none =>
    match c.enterErr with
    | some exc => ([.enter c.id], .error exc)
    | none => ([.enter c.id], .ok ⟨c.id, c.exitErr⟩)

/-- `With<ContextType>::~With()` (with.h line 70): invoke `ExitWithScope()`,
propagating its error if any (`noexcept(false)`). -/
def destroyWith {ε : Type} (e : Entry ε) : List Event × Option ε :=
  ([.exit e.id], e.exitErr)

/-- `WithGroup<ContextType>` (with.h lines 113-165): `entries_` in insertion
order, the back of the list being the most recently added entry. -/
structure WithGroup (ε : Type) where
  entries : List (Entry ε)
deriving Repr

/-- `WithGroup::WithGroup()` (with.h line 116): an empty group. -/
def WithGroup.init {ε : Type} : WithGroup ε := ⟨[]⟩

/-- `WithGroup::size()` (with.h line 132). -/
def WithGroup.size {ε : Type} (g : WithGroup ε) : Nat := g.entries.length

/-- `WithGroup::Emplace(Args&&...)` (with.h lines 127-129):
`entries_.push_back(std::make_unique<With<ContextType>>(args...))`.  The
`With` construction runs first; if it raises, `push_back` is never reached
and the group is unchanged.  Returns the resulting group, the logged hook
invocations, and the propagated error if any. -/
def WithGroup.Emplace {ε : Type} (g : WithGroup ε) (c : CtxSpec ε) :
    WithGroup ε × List Event × Option ε :=
  match mkWith c with
  | (evs, .error exc) => (g, evs, some exc)
  | (evs, .ok e) => (⟨g.entries ++ [e]⟩, evs, none)

/-- One record of `entry.reset()` inside the destructor loop (with.h line
153): which entry's exit hook ran, how many entries `entries_` held at that
moment (the entry itself already popped), and what the hook raised. -/
structure ExitCall (ε : Type) where
  id : Nat
  sizeAtCall : Nat
  raised : Option ε
deriving Repr, DecidableEq

/-- The `while (!entries_.empty())` loop of `WithGroup::~WithGroup()`
(with.h lines 147-159): move the last entry out, `pop_back`, then destroy it;
if destruction raises and we are not unwinding and no first exception is
recorded yet, record it, otherwise swallow it. -/
def dtorLoop {ε : Type} (unwinding : Bool) (entries : List (Entry ε))
    (first : Option ε) (log : List (ExitCall ε)) :
    List (Entry ε) × List (ExitCall ε) × Option ε :=
  match hne : entries.getLast? with
  | none => (entries, log, first)
  | some e =>
    let rest := entries.dropLast
    let first' :=
      match e.exitErr with
      | none => first
      | some exc => if !unwinding && first.isNone then some exc else first
    dtorLoop unwinding rest first' (log ++ [⟨e.id, rest.length, e.exitErr⟩])
termination_by entries.length
decreasing_by
  have hnil : entries ≠ [] := by intro h; subst h; simp at hne
  simp only [List.length_dropLast]
  exact Nat.sub_lt (List.length_pos.mpr hnil) Nat.one_pos

/-- `WithGroup::~WithGroup()` (with.h lines 144-161): sample
`unwinding = std::uncaught_exceptions() > 0` once, run the teardown loop,
then rethrow the first recorded exception if any.  Returns the final state of
`entries_`, the ordered log of exit-hook invocations, and the error that
propagates out of the destructor (`none` if it completes normally). -/
def WithGroup.dtor {ε : Type} (unwinding : Bool) (g : WithGroup ε) :
    List (Entry ε) × List (ExitCall ε) × Option ε :=
  dtorLoop unwinding g.entries none []

/-- The exit calls the destructor loop performs on a list of entries given in
teardown order (most recently added first): each entry's hook runs with the
entry already removed, so `sizeAtCall` is the number of entries after it. -/
def callsOf {ε : Type} : List (Entry ε) → List (ExitCall ε)
  | [] => []
  | e :: rest => ⟨e.id, rest.length, e.exitErr⟩ :: callsOf rest

/-- The first-error-wins/unwind-suppression recording of the destructor loop,
folded over the exit-hook outcomes in teardown order. -/
def recordFold {ε : Type} (unwinding : Bool) : Option ε → List (Option ε) → Option ε
  | first, [] => first
  | first, none :: rest => recordFold unwinding first rest
  | first, some exc :: rest =>
      recordFold unwinding (if !unwinding && first.isNone then some exc else first) rest

theorem dtorLoop_spec {ε : Type} (unwinding : Bool) (entries : List (Entry ε))
    (first : Option ε) (log : List (ExitCall ε)) :
    dtorLoop unwinding entries first log =
      ([], log ++ callsOf entries.reverse,
        recordFold unwinding first (entries.reverse.map Entry.exitErr)) := by
  induction entries using List.reverseRecOn generalizing first log with
  | nil => rw [dtorLoop]; simp [callsOf, recordFold]
  | append_singleton l e ih =>
    rw [dtorLoop]
    split
    next hnone => simp at hnone
    next e1 hsome =>
      rw [List.getLast?_concat, Option.some_inj] at hsome
      subst hsome
      simp only [List.dropLast_concat, ih, List.reverse_concat, List.map_cons, callsOf,
        List.append_assoc, List.cons_append, List.nil_append]
      cases h : e.exitErr with
      | none => simp [recordFold, h]
      | some exc => simp [recordFold, h]

/-- `WithGroup`'s move construction / move assignment (with.h lines 117-118,
`WithGroup(WithGroup&&) = default` over the `std::vector` member `entries_`):
the target steals the source's entries and the moved-from vector is left
empty.  Result: (moved-from source, move target). -/
def WithGroup.move {ε : Type} (g : WithGroup ε) : WithGroup ε × WithGroup ε :=
  (⟨[]⟩, ⟨g.entries⟩)

/-- A sequence of `Emplace` calls on a group, stopping at the first failure
(an error raised inside `Emplace` propagates to its caller, so the later
calls in the sequence never run).  Returns the final group, the concatenated
event log, and the propagated error if any. -/
def WithGroup.emplaceAll {ε : Type} (g : WithGroup ε) :
    List (CtxSpec ε) → WithGroup ε × List Event × Option ε
  | [] => (g, [], none)
  | c :: cs =>
    match g.Emplace c with
    | (g', evs, none) =>
      let r := g'.emplaceAll cs
      (r.1, evs ++ r.2.1, r.2.2)
    | (g', evs, some exc) => (g', evs, some exc)

/-- `ScopeStack<T>` (scope_stack.h lines 54-119): `stack_` with index 0 the
outermost level and the back of the list the innermost level. -/
structure ScopeStack (T : Type) where
  stack : List T
deriving DecidableEq, Repr

/-- `ScopeStack::ScopeStack()` (scope_stack.h line 58): constructs with one
initial, default-constructed scope level. -/
def ScopeStack.init {T : Type} [Inhabited T] : ScopeStack T := ⟨[default]⟩

/-- `ScopeStack::size()` (scope_stack.h line 61). -/
def ScopeStack.size {T : Type} (s : ScopeStack T) : Nat := s.stack.length

/-- `ScopeStack::empty()` (scope_stack.h line 64). -/
def ScopeStack.empty {T : Type} (s : ScopeStack T) : Bool := s.stack.isEmpty

/-- `ScopeStack::Current()` (scope_stack.h lines 74-83, both the mutable and
the const overload): `TVM_FFI_ICHECK(!stack_.empty())`, then `stack_.back()`.
The fatal, non-recoverable ICHECK failure on an empty stack is modelled as
`none` (no sentinel element is ever produced); a successful call returns
`some` of the innermost element. -/
def ScopeStack.Current {T : Type} (s : ScopeStack T) : Option T :=
  if s.stack.isEmpty then none
  else s.stack.getLast?

/-- `ScopeStack::WithNewScope(F&& body)` (scope_stack.h lines 93-105):
`stack_.emplace_back()` pushes one default-constructed element, the `Guard`'s
destructor performs `stack_.pop_back()` on every exit path (normal return or
propagating error), and the body runs in between.  The body is modelled as a
function from the stack it observes (which it may mutate reentrantly through
this same interface) to the mutated stack paired with either its return
value or a raised error; the error case of the `Except` is the path where an
exception propagates out of `body()`. -/
def ScopeStack.WithNewScope {T ε α : Type} [Inhabited T] (s : ScopeStack T)
    (body : ScopeStack T → ScopeStack T × Except ε α) :
    ScopeStack T × Except ε α :=
  let s1 : ScopeStack T := ⟨s.stack ++ [default]⟩
  let r := body s1
  (⟨r.1.stack.dropLast⟩, r.2)

/-- Client programs over the public `ScopeStack` interface.  Among the public
operations only `WithNewScope` changes the stack's shape (`Current`, `size`
and `empty` are read-only queries), so — as far as the stack's shape is
concerned — a public-interface client is a sequence and nest of
`WithNewScope` bodies, any point of which may raise an error. -/
inductive Prog where
  | skip
  | fail
  | seq (p q : Prog)
  | scope (p : Prog)

/-- Run a public-interface program on a stack.  Returns the final stack,
whether an error is propagating out of the program, and the trace of every
stack state at which the program could have performed a read-only query
(`Current()` in particular).  `scope` runs its inner program through
`ScopeStack.WithNewScope`, carrying the trace in the body's value or error. -/
def runP {T : Type} [Inhabited T] :
    Prog → ScopeStack T → ScopeStack T × Bool × List (ScopeStack T)
  | .skip, s => (s, false, [s])
  | .fail, s => (s, true, [s])
  | .seq p q, s =>
    let r1 := runP p s
    if r1.2.1 then (r1.1, true, r1.2.2)
    else
      let r2 := runP q r1.1
      (r2.1, r2.2.1, r1.2.2 ++ r2.2.2)
  | .scope p, s =>
    let res := s.WithNewScope (fun st =>
      let r := runP p st
      (r.1, if r.2.1 then Except.error r.2.2 else Except.ok r.2.2))
    match res.2 with
    | .ok t => (res.1, false, s :: t)
    | .error t => (res.1, true, s :: t)

theorem callsOf_map_id {ε : Type} (l : List (Entry ε)) :
    (callsOf l).map ExitCall.id = l.map Entry.id := by
  induction l with
  | nil => rfl
  | cons e rest ih => simp [callsOf, ih]

theorem callsOf_length {ε : Type} (l : List (Entry ε)) :
    (callsOf l).length = l.length := by
  induction l with
  | nil => rfl
  | cons e rest ih => simp [callsOf, ih]

theorem callsOf_sizeAtCall {ε : Type} (l : List (Entry ε)) (i : Nat)
    (h : i < l.length) :
    ∃ call, (callsOf l)[i]? = some call ∧ call.sizeAtCall = l.length - 1 - i := by
  induction l generalizing i with
  | nil => simp [callsOf] at h
  | cons e rest ih =>
    cases i with
    | zero =>
      refine ⟨⟨e.id, rest.length, e.exitErr⟩, ?_, ?_⟩
      · simp [callsOf]
      · simp
    | succ j =>
      have hj : j < rest.length := by
        simpa [List.length_cons, Nat.succ_lt_succ_iff] using h
      obtain ⟨call, hget, hsz⟩ := ih j hj
      refine ⟨call, ?_, ?_⟩
      · simpa [callsOf] using hget
      · rw [hsz]; simp only [List.length_cons]; omega

theorem recordFold_some {ε : Type} (unwinding : Bool) (v : ε) (l : List (Option ε)) :
    recordFold unwinding (some v) l = some v := by
  induction l with
  | nil => rfl
  | cons o rest ih => cases o <;> simp [recordFold, ih]

theorem recordFold_true {ε : Type} (first : Option ε) (l : List (Option ε)) :
    recordFold true first l = first := by
  induction l generalizing first with
  | nil => rfl
  | cons o rest ih => cases o <;> simp [recordFold, ih]

theorem recordFold_false_none {ε : Type} (l : List (Option ε)) :
    recordFold false none l = l.reduceOption.head? := by
  induction l with
  | nil => rfl
  | cons o rest ih =>
    cases o with
    | none => simpa [recordFold, List.reduceOption] using ih
    | some v => simp [recordFold, List.reduceOption, recordFold_some]

theorem emplaceAll_ok {ε : Type} (cs : List (CtxSpec ε)) (g : WithGroup ε)
    (hok : ∀ c ∈ cs, c.ctorErr = none ∧ c.enterErr = none) :
    (g.emplaceAll cs).1.entries =
        g.entries ++ cs.map (fun c => (⟨c.id, c.exitErr⟩ : Entry ε)) ∧
    (g.emplaceAll cs).2.2 = none := by
  induction cs generalizing g with
  | nil => simp [WithGroup.emplaceAll]
  | cons c cs ih =>
    obtain ⟨hc, he⟩ := hok c (by simp)
    have hrest : ∀ c' ∈ cs, c'.ctorErr = none ∧ c'.enterErr = none :=
      fun c' hc' => hok c' (by simp [hc'])
    have := ih (⟨g.entries ++ [⟨c.id, c.exitErr⟩]⟩ : WithGroup ε) hrest
    simp [WithGroup.emplaceAll, WithGroup.Emplace, mkWith, hc, he, this.1, this.2]

theorem current_of_size {T : Type} (s : ScopeStack T) (h : 1 ≤ s.size) :
    s.Current.isSome = true ∧ s.empty = false := by
  cases hs : s.stack with
  | nil => simp [ScopeStack.size, hs] at h
  | cons x xs =>
    constructor
    · simp [ScopeStack.Current, hs, List.getLast?_concat]
    · simp [ScopeStack.empty, hs]

theorem runP_size {T : Type} [Inhabited T] (p : Prog) (s : ScopeStack T) :
    (runP p s).1.size = s.size ∧
    ∀ s' ∈ (runP p s).2.2, s.size ≤ s'.size := by
  induction p generalizing s with
  | skip => constructor <;> simp [runP]
  | fail => constructor <;> simp [runP]
  | seq p q ihp ihq =>
    simp only [runP]
    by_cases hb : (runP p s).2.1 = true
    · simp only [hb, if_true]
      exact ⟨(ihp s).1, (ihp s).2⟩
    · simp only [hb, if_false, Bool.false_eq_true]
      refine ⟨?_, ?_⟩
      · rw [(ihq (runP p s).1).1, (ihp s).1]
      · intro s' hs'
        rcases List.mem_append.mp hs' with hmem | hmem
        · exact (ihp s).2 s' hmem
        · calc s.size = (runP p s).1.size := ((ihp s).1).symm
            _ ≤ s'.size := (ihq (runP p s).1).2 s' hmem
  | scope p ih =>
    simp only [runP, ScopeStack.WithNewScope]
    have h1 : (⟨s.stack ++ [default]⟩ : ScopeStack T).size = s.size + 1 := by
      simp [ScopeStack.size]
    have ihs := ih (⟨s.stack ++ [default]⟩ : ScopeStack T)
    have hdrop :
        (⟨(runP p (⟨s.stack ++ [default]⟩ : ScopeStack T)).1.stack.dropLast⟩ :
            ScopeStack T).size = s.size := by
      have := ihs.1
      simp only [ScopeStack.size] at this h1 ⊢
      simp [List.length_dropLast, this, h1]
    have htrace : ∀ s' ∈ s :: (runP p (⟨s.stack ++ [default]⟩ : ScopeStack T)).2.2,
        s.size ≤ s'.size := by
      intro s' hs'
      rcases List.mem_cons.mp hs' with rfl | hmem
      · exact Nat.le_refl _
      · calc s.size ≤ s.size + 1 := Nat.le_succ _
          _ = (⟨s.stack ++ [default]⟩ : ScopeStack T).size := h1.symm
          _ ≤ s'.size := ihs.2 s' hmem
    by_cases hb : (runP p (⟨s.stack ++ [default]⟩ : ScopeStack T)).2.1 = true
    · simp only [hb, if_true]
      exact ⟨hdrop, htrace⟩
    · simp only [hb, if_false, Bool.false_eq_true]
      exact ⟨hdrop, htrace⟩

/-- C1: For every group teardown that begins while no ambient failure is in
flight (`unwinding = false`): if one or more entries' exit hooks raise, the
error propagated to the caller of the destruction is exactly the first error
in teardown order (every later error in the same pass is discarded, since
only this single first error is surfaced), and every remaining entry's exit
hook is still invoked — the exit log covers all entries, most recently
added first — and no entry remains. -/
theorem dtor_normal_path_first_error {ε : Type} (g : WithGroup ε)
    (hfail : (g.entries.reverse.map Entry.exitErr).reduceOption ≠ []) :
    (WithGroup.dtor false g).2.2 =
        ((g.entries.reverse.map Entry.exitErr).reduceOption).head? ∧
    ((WithGroup.dtor false g).2.2).isSome = true ∧
    ((WithGroup.dtor false g).2.1).map ExitCall.id = g.entries.reverse.map Entry.id ∧
    (WithGroup.dtor false g).1 = [] := by
  unfold WithGroup.dtor
  rw [dtorLoop_spec]
  simp only [List.nil_append]
  refine ⟨recordFold_false_none _, ?_, callsOf_map_id _, trivial⟩
  rw [recordFold_false_none]
  cases hl : (g.entries.reverse.map Entry.exitErr).reduceOption with
  | nil => exact absurd hl hfail
  | cons a l => simp

theorem dtor_normal_path_first_error_witness :
    (WithGroup.dtor false
        (⟨[⟨1, none⟩, ⟨2, some 20⟩, ⟨3, some 30⟩]⟩ : WithGroup Nat)).2.2 = some 30 ∧
    ((WithGroup.dtor false
        (⟨[⟨1, none⟩, ⟨2, some 20⟩, ⟨3, some 30⟩]⟩ : WithGroup Nat)).2.1).map ExitCall.id =
      [3, 2, 1] := by
  have h := dtor_normal_path_first_error
      (⟨[⟨1, none⟩, ⟨2, some 20⟩, ⟨3, some 30⟩]⟩ : WithGroup Nat) (by decide)
  refine ⟨?_, ?_⟩
  · rw [h.1]; decide
  · rw [h.2.2.1]; decide

/-- C2: For every group teardown that begins while an ambient failure is
already in flight (`unwinding = true`, sampled once at the start of
destruction): every error raised by any entry's exit hook is suppressed —
the destructor propagates nothing — and every entry's exit hook is still
invoked, leaving no entry behind. -/
theorem dtor_unwinding_suppresses {ε : Type} (g : WithGroup ε) :
    (WithGroup.dtor true g).2.2 = none ∧
    ((WithGroup.dtor true g).2.1).map ExitCall.id = g.entries.reverse.map Entry.id ∧
    (WithGroup.dtor true g).1 = [] := by
  unfold WithGroup.dtor
  rw [dtorLoop_spec]
  exact ⟨recordFold_true none _, by simp [callsOf_map_id], rfl⟩

/-- C3: For every sequence of n successful `Emplace` calls on a fresh group,
destroying the group invokes the n exit hooks in exactly the reverse of the
emplacement order (most recently added first), and each entry is removed
from the sequence before its exit hook is invoked: at the i-th exit call the
group holds only n - 1 - i entries. -/
theorem dtor_reverse_order {ε : Type} (cs : List (CtxSpec ε)) (unwinding : Bool)
    (hok : ∀ c ∈ cs, c.ctorErr = none ∧ c.enterErr = none) :
    ((WithGroup.init.emplaceAll cs).2.2 = none) ∧
    ((WithGroup.init.emplaceAll cs).1.size = cs.length) ∧
    (((WithGroup.dtor unwinding (WithGroup.init.emplaceAll cs).1).2.1).map ExitCall.id =
        (cs.map CtxSpec.id).reverse) ∧
    (∀ i, i < cs.length →
      ∃ call, ((WithGroup.dtor unwinding (WithGroup.init.emplaceAll cs).1).2.1)[i]? =
          some call ∧ call.sizeAtCall = cs.length - 1 - i) := by
  obtain ⟨hent, hnone⟩ := emplaceAll_ok cs WithGroup.init hok
  have hinit : (WithGroup.init (ε := ε)).entries = [] := rfl
  rw [hinit, List.nil_append] at hent
  refine ⟨hnone, ?_, ?_, ?_⟩
  · simp [WithGroup.size, hent]
  · unfold WithGroup.dtor
    rw [dtorLoop_spec]
    simp only [List.nil_append, callsOf_map_id, hent]
    simp [List.map_reverse, List.map_map, Function.comp]
  · intro i hi
    unfold WithGroup.dtor
    rw [dtorLoop_spec]
    simp only [List.nil_append]
    have hlen : (WithGroup.init.emplaceAll cs).1.entries.reverse.length = cs.length := by
      simp [hent]
    obtain ⟨call, hget, hsz⟩ :=
      callsOf_sizeAtCall ((WithGroup.init.emplaceAll cs).1.entries.reverse) i
        (by rw [hlen]; exact hi)
    exact ⟨call, hget, by rw [hsz, hlen]⟩

theorem dtor_reverse_order_witness :
    ((WithGroup.dtor false
        ((WithGroup.init.emplaceAll
          [(⟨1, none, none, none⟩ : CtxSpec Nat), ⟨2, none, none, none⟩]).1)).2.1).map
        ExitCall.id = [2, 1] ∧
    (∃ call, ((WithGroup.dtor false
        ((WithGroup.init.emplaceAll
          [(⟨1, none, none, none⟩ : CtxSpec Nat), ⟨2, none, none, none⟩]).1)).2.1)[0]? =
        some call ∧ call.sizeAtCall = 1) := by
  have h := dtor_reverse_order
      [(⟨1, none, none, none⟩ : CtxSpec Nat), ⟨2, none, none, none⟩] false
      (by decide)
  refine ⟨?_, ?_⟩
  · rw [h.2.2.1]; decide
  · obtain ⟨call, hget, hsz⟩ := h.2.2.2 0 (by decide)
    exact ⟨call, hget, hsz⟩

/-- C4: `WithNewScope` pushes exactly one new default-initialized element
before invoking the body and pops exactly one element afterwards on every
exit path: for any body that is itself balanced on the extended stack, the
stack size after the call equals the size before it, and the body's outcome
(normal value or raised error) is handed back unchanged. -/
theorem withNewScope_balanced {T ε α : Type} [Inhabited T] (s : ScopeStack T)
    (body : ScopeStack T → ScopeStack T × Except ε α)
    (hb : (body (⟨s.stack ++ [default]⟩ : ScopeStack T)).1.size = s.size + 1) :
    (s.WithNewScope body).1.size = s.size ∧
    (s.WithNewScope body).2 = (body (⟨s.stack ++ [default]⟩ : ScopeStack T)).2 := by
  unfold ScopeStack.WithNewScope
  simp only [ScopeStack.size] at hb ⊢
  exact ⟨by simp [List.length_dropLast, hb], trivial⟩

theorem withNewScope_balanced_witness :
    ((⟨[0]⟩ : ScopeStack Nat).WithNewScope
        (fun st => (st, (Except.error 7 : Except Nat Nat)))).1.size = 1 ∧
    ((⟨[0]⟩ : ScopeStack Nat).WithNewScope
        (fun st => (st, (Except.error 7 : Except Nat Nat)))).2 = Except.error 7 := by
  have h := withNewScope_balanced (⟨[0]⟩ : ScopeStack Nat)
      (fun st => (st, (Except.error 7 : Except Nat Nat))) (by decide)
  exact ⟨h.1.trans rfl, h.2.trans rfl⟩

/-- C6: For every `Emplace` whose context construction or enter hook raises:
the error propagates to the caller of `Emplace` (construction error first),
the group is left unchanged (same entries, same size), and no exit hook is
ever invoked for the failed attempt (the event log of the call holds no exit
event). -/
theorem emplace_failure_unchanged {ε : Type} (g : WithGroup ε) (c : CtxSpec ε)
    (hfail : c.ctorErr.isSome = true ∨ c.enterErr.isSome = true) :
    (g.Emplace c).1 = g ∧
    (g.Emplace c).1.size = g.size ∧
    ((g.Emplace c).2.2 = match c.ctorErr with
      | some exc => some exc
      | none => c.enterErr) ∧
    ((g.Emplace c).2.2).isSome = true ∧
    (∀ ev ∈ (g.Emplace c).2.1, ∀ j, ev ≠ Event.exit j) := by
  cases hc : c.ctorErr with
  | some exc => simp [WithGroup.Emplace, mkWith, hc]
  | none =>
    cases he : c.enterErr with
    | some exc => simp [WithGroup.Emplace, mkWith, hc, he]
    | none => rcases hfail with h | h <;> simp [hc, he] at h

theorem emplace_failure_unchanged_witness :
    ((WithGroup.init (ε := Nat)).Emplace ⟨5, none, some 99, none⟩).1 =
        WithGroup.init (ε := Nat) ∧
    ((WithGroup.init (ε := Nat)).Emplace ⟨5, none, some 99, none⟩).2.2 = some 99 := by
  have h := emplace_failure_unchanged (WithGroup.init (ε := Nat))
      ⟨5, none, some 99, none⟩ (Or.inr (by decide))
  exact ⟨h.1, h.2.2.1.trans rfl⟩

/-- C7: After any group's destructor completes — whether it propagates a
teardown error or finishes normally, and whatever the ambient-unwinding
flag — no entry remains: the final `entries_` is empty and `size()` is 0. -/
theorem dtor_empties {ε : Type} (unwinding : Bool) (g : WithGroup ε) :
    (WithGroup.dtor unwinding g).1 = [] ∧
    (WithGroup.mk (WithGroup.dtor unwinding g).1).size = 0 := by
  unfold WithGroup.dtor
  rw [dtorLoop_spec]
  exact ⟨rfl, rfl⟩

/-- C8: `Current()` (the mutable and read-only forms coincide in the model)
returns the innermost (last) element when the stack is non-empty, and on an
empty stack takes the fatal invariant-violation branch — modelled as `none`:
no sentinel element is ever produced. -/
theorem current_innermost_or_fatal {T : Type} (s : ScopeStack T) :
    (s.empty = false → ∃ hne : s.stack ≠ [], s.Current = some (s.stack.getLast hne)) ∧
    (s.empty = true → s.Current = none) := by
  constructor
  · intro hne
    have hn : s.stack ≠ [] := by
      simpa [ScopeStack.empty, List.isEmpty_iff] using hne
    refine ⟨hn, ?_⟩
    simp [ScopeStack.Current, hn, List.isEmpty_iff, List.getLast?_eq_getLast _ hn]
  · intro he
    have hn : s.stack = [] := by
      simpa [ScopeStack.empty, List.isEmpty_iff] using he
    simp [ScopeStack.Current, hn]

theorem current_innermost_or_fatal_witness :
    (⟨[5, 7]⟩ : ScopeStack Nat).Current = some 7 ∧
    (⟨[]⟩ : ScopeStack Nat).Current = none := by
  constructor
  · obtain ⟨hne, h⟩ := (current_innermost_or_fatal (⟨[5, 7]⟩ : ScopeStack Nat)).1 (by decide)
    rw [h]
    rfl
  · exact (current_innermost_or_fatal (⟨[]⟩ : ScopeStack Nat)).2 (by decide)

/-- C9: every program over the public `ScopeStack` interface preserves the
invariant size ≥ 1: the constructor establishes exactly one element, a
public-interface program returns with exactly that one element, and at every
intermediate state the program can observe `Current()` succeeds and
`empty()` is false — the empty-stack failure branch is unreachable through
the public interface. -/
theorem public_interface_safe {T : Type} [Inhabited T] (p : Prog) :
    (ScopeStack.init (T := T)).size = 1 ∧
    (runP p (ScopeStack.init (T := T))).1.size = 1 ∧
    (∀ s ∈ (runP p (ScopeStack.init (T := T))).2.2,
      1 ≤ s.size ∧ s.Current.isSome = true ∧ s.empty = false) := by
  have hinit : (ScopeStack.init (T := T)).size = 1 := by
    simp [ScopeStack.init, ScopeStack.size]
  have h := runP_size p (ScopeStack.init (T := T))
  refine ⟨hinit, h.1.trans hinit, ?_⟩
  intro s hs
  have h1 : 1 ≤ s.size := hinit ▸ h.2 s hs
  exact ⟨h1, (current_of_size s h1).1, (current_of_size s h1).2⟩

theorem public_interface_safe_witness :
    1 ≤ (ScopeStack.init (T := Nat)).size ∧
    (ScopeStack.init (T := Nat)).Current.isSome = true ∧
    (runP (Prog.scope Prog.fail) (ScopeStack.init (T := Nat))).1.size = 1 := by
  have h := public_interface_safe (T := Nat) (Prog.scope Prog.fail)
  have hm : (ScopeStack.init (T := Nat)) ∈
      (runP (Prog.scope Prog.fail) (ScopeStack.init (T := Nat))).2.2 := by
    simp [runP, ScopeStack.WithNewScope]
  have h3 := h.2.2 _ hm
  exact ⟨h3.1, h3.2.1, h.2.1⟩

/-- C10: `WithGroup` is movable (its move operations are defaulted, unlike
the deleted ones of the single `With`): after moving a group with n entries,
the target holds the n entries in the original order, the moved-from group
holds zero entries, destroying the moved-from group invokes no exit hooks,
and — for entries with distinct identities — each entry's exit hook is
invoked exactly once overall across the destruction of both groups. -/
theorem move_spec {ε : Type} (g : WithGroup ε) (unwinding : Bool)
    (hnd : (g.entries.map Entry.id).Nodup) :
    (g.move).2.entries = g.entries ∧
    (g.move).1.size = 0 ∧
    (WithGroup.dtor unwinding (g.move).1).2.1 = [] ∧
    (∀ e ∈ g.entries,
      (((WithGroup.dtor unwinding (g.move).1).2.1 ++
          (WithGroup.dtor unwinding (g.move).2).2.1).map ExitCall.id).count e.id = 1) := by
  have h1 : (WithGroup.dtor unwinding (g.move).1).2.1 = [] := by
    unfold WithGroup.move WithGroup.dtor
    rw [dtorLoop_spec]
    rfl
  refine ⟨rfl, rfl, h1, ?_⟩
  intro e he
  have h2 : ((WithGroup.dtor unwinding (g.move).2).2.1).map ExitCall.id =
      g.entries.reverse.map Entry.id := by
    unfold WithGroup.move WithGroup.dtor
    rw [dtorLoop_spec]
    simp [callsOf_map_id]
  rw [List.map_append, h1, List.map_nil, List.nil_append, h2, List.map_reverse,
    List.count_reverse]
  exact List.count_eq_one_of_mem hnd (List.mem_map_of_mem Entry.id he)

theorem move_spec_witness :
    ((⟨[⟨1, none⟩, ⟨2, none⟩]⟩ : WithGroup Nat).move).2.entries =
        [⟨1, none⟩, ⟨2, none⟩] ∧
    (((WithGroup.dtor false ((⟨[⟨1, none⟩, ⟨2, none⟩]⟩ : WithGroup Nat).move).1).2.1 ++
        (WithGroup.dtor false
          ((⟨[⟨1, none⟩, ⟨2, none⟩]⟩ : WithGroup Nat).move).2).2.1).map
        ExitCall.id).count 1 = 1 := by
  have h := move_spec (⟨[⟨1, none⟩, ⟨2, none⟩]⟩ : WithGroup Nat) false (by decide)
  exact ⟨h.1, h.2.2.2 ⟨1, none⟩ (by decide)⟩

end TVM
